import Mathlib

/-!
Verification of the GEX (gamma exposure) aggregation core of the
`gex-builde` repository.

The repository's scripts share one piece of domain logic: turn raw
per-contract option quotes into a per-strike table of call/put/net gamma
exposure, a cumulative-GEX series, a zero-crossing "flip zone", and a
gamma squeeze index (GSI).  The embedding below follows the source
closely:

* `compute_flip_zone` embeds `compute_flip_zone` of `gex_builder.py`
  (and the identical logic in `gex_to_pinescript_converter.py` /
  `gex_to_tradingview.py`): sort rows by strike, take the cumulative sum
  of `net_gex`, apply `np.sign`, and return the midpoint of the first
  adjacent strike pair whose signs differ, else `None`.
* `buildGexRow` embeds the per-quote row construction of
  `build_gex` in `gex_builder.py` (extract strike/gamma/oi/underlying,
  discard the quote when any is missing, otherwise
  `GEX = gamma * oi * 100 * underlying`).
* `buildDayRow` embeds the per-quote row construction of `build_day` in
  `gex_backfill_utility.py`, where the strike comes from the option
  symbol and a missing (or falsy) `underlyingPrice` falls back to the
  day's spot price via Python's `or`.
* `call_gex`, `put_gex`, `net_gex`, `GSI_at`, `buildTable` embed the
  pandas `groupby(["strike","type"]).sum().unstack(fill_value=0)` pivot,
  `net_gex = call_gex - put_gex`, and
  `GSI = np.where(total > 0, |call| / total, 0)` of `build_gex`.
* `build_gex` embeds the whole aggregation including the
  empty-after-filtering guard (`if df.empty: return None, None`).

Numbers are modelled as exact rationals (`ℚ`); Python floats carry no
rounding contract in the spec, whose arithmetic is stated over reals.
-/

/-- One aggregation input row, as appended to `rows` in `build_gex` /
`build_day`: the strike, the per-contract gamma exposure `GEX`, and the
option type (`otype = true` for a call `"C"`, `false` for a put `"P"`). -/
structure Row where
  strike : ℚ
  GEX : ℚ
  otype : Bool
deriving DecidableEq

/-- The fields `safe_extract` pulls out of one raw API quote, each
possibly absent (`None` in the source), plus the option type inferred
from the option symbol by `infer_option_type` (which always yields
`"C"` or `"P"`). -/
structure Quote where
  strike : Option ℚ
  gamma : Option ℚ
  oi : Option ℚ
  underlying : Option ℚ
  otype : Bool
deriving DecidableEq

/-- One row of the pivoted per-strike table built by `build_gex`
(columns `call_gex`, `put_gex`, `net_gex`, `GSI` over the strike
index). -/
structure StrikeRow where
  strike : ℚ
  call_gex : ℚ
  put_gex : ℚ
  net_gex : ℚ
  GSI : ℚ
deriving DecidableEq

/-- `np.sign` on exact rationals: `1` for positive, `-1` for negative,
`0` for zero. -/
def sign (q : ℚ) : Int :=
  if 0 < q then 1 else if q < 0 then -1 else 0

/-- Running sum with accumulator: `cumsumFrom acc [x, y, ...] =
[acc + x, acc + x + y, ...]`. -/
def cumsumFrom (acc : ℚ) : List ℚ → List ℚ
  | [] => []
  | x :: xs => (acc + x) :: cumsumFrom (acc + x) xs

/-- Pandas `Series.cumsum`: the list of prefix sums. -/
def cumsum (l : List ℚ) : List ℚ := cumsumFrom 0 l

/-- Scan a list of (strike, sign-of-cumulative-GEX) pairs for the first
adjacent pair with differing signs; return the strike midpoint there.
This is `np.where(np.diff(signs))[0]` followed by
`(low + high) / 2` on the first such index in `compute_flip_zone`. -/
def flipScan : List (ℚ × Int) → Option ℚ
  | (s1, g1) :: (s2, g2) :: rest =>
    if g2 ≠ g1 then some ((s1 + s2) / 2) else flipScan ((s2, g2) :: rest)
  | _ => none

/-- `df.sort_values("strike")` / `df.sort_index()` on a frame holding
(strike, net_gex) pairs. -/
def sortByStrike (df : List (ℚ × ℚ)) : List (ℚ × ℚ) :=
  df.insertionSort (fun a b => a.1 ≤ b.1)

/-- `compute_flip_zone` of `gex_builder.py` (strikes already numeric):
sort by strike, cumulate `net_gex`, take `np.sign`, and return the
strike midpoint at the first adjacent sign change, else `None`. -/
def compute_flip_zone (df : List (ℚ × ℚ)) : Option ℚ :=
  let ds := sortByStrike df
  flipScan ((ds.map Prod.fst).zip ((cumsum (ds.map Prod.snd)).map sign))

/-- The strike index of the pivoted table: the distinct observed
strikes in ascending order (pandas `groupby` sorts its keys). -/
def strikesOf (rows : List Row) : List ℚ :=
  ((rows.map Row.strike).dedup).insertionSort (· ≤ ·)

/-- The `call_gex` column at strike `s`: the sum of `GEX` over all call
rows at `s` (`groupby(["strike","type"]).sum()`, call side, with
`unstack(fill_value=0)` making the empty group `0`). -/
def call_gex (rows : List Row) (s : ℚ) : ℚ :=
  ((rows.filter fun r => r.otype && decide (r.strike = s)).map Row.GEX).sum

/-- The `put_gex` column at strike `s`, analogous to `call_gex`. -/
def put_gex (rows : List Row) (s : ℚ) : ℚ :=
  ((rows.filter fun r => !r.otype && decide (r.strike = s)).map Row.GEX).sum

/-- The `net_gex` column: `call_gex - put_gex`. -/
def net_gex (rows : List Row) (s : ℚ) : ℚ :=
  call_gex rows s - put_gex rows s

/-- The `GSI` column:
`np.where(total_gex > 0, call_gex.abs() / total_gex, 0)` with
`total_gex = call_gex.abs() + put_gex.abs()`. -/
def GSI_at (rows : List Row) (s : ℚ) : ℚ :=
  let total := |call_gex rows s| + |put_gex rows s|
  if 0 < total then |call_gex rows s| / total else 0

/-- The pivoted per-strike table of `build_gex`: one row per distinct
strike, in ascending strike order, with `call_gex` / `put_gex` summed
per side (`0` when a side is absent), `net_gex` their difference, and
the `GSI` column. -/
def buildTable (rows : List Row) : List StrikeRow :=
  (strikesOf rows).map fun s =>
    { strike := s
      call_gex := call_gex rows s
      put_gex := put_gex rows s
      net_gex := call_gex rows s - put_gex rows s
      GSI := GSI_at rows s }

/-- The cumulative-GEX series of the table: prefix sums of `net_gex`
in the table's (ascending-strike) row order. -/
def cum_gex (table : List StrikeRow) : List ℚ := cumsum (table.map StrikeRow.net_gex)

/-- Row construction of `build_gex` in `gex_builder.py`: extract
strike, gamma, open interest and underlying price; when any is missing
the quote is skipped (`continue`), otherwise
`GEX = gamma * oi * 100 * underlying`. -/
def buildGexRow (q : Quote) : Option Row :=
  match q.strike, q.gamma, q.oi, q.underlying with
  | some s, some g, some o, some u => some ⟨s, g * o * 100 * u, q.otype⟩
  | _, _, _, _ => none

/-- Python's `x or fallback` on an optional numeric value: the fallback
is used when the value is absent or falsy (zero). -/
def orElse0 (v : Option ℚ) (fallback : ℚ) : ℚ :=
  match v with
  | none => fallback
  | some x => if x = 0 then fallback else x

/-- Row construction of `build_day` in `gex_backfill_utility.py`: the
strike comes from `parse_option_symbol`; a quote missing gamma or open
interest is skipped, but a missing `underlyingPrice` falls back to the
day's spot price (`safe_extract(q, [...]) or spot_price`). -/
def buildDayRow (spot : ℚ) (strike : ℚ) (q : Quote) : Option Row :=
  let u := orElse0 q.underlying spot
  match q.gamma, q.oi with
  | some g, some o => some ⟨strike, g * o * 100 * u, q.otype⟩
  | _, _ => none

/-- A quote with all four required fields present (the complement of
`if any(v is None for v in [strike, gamma, oi, underlying])`). -/
def isValid (q : Quote) : Bool :=
  q.strike.isSome && q.gamma.isSome && q.oi.isSome && q.underlying.isSome

/-- `build_gex` aggregation: keep the valid quotes' rows, and if none
remain return `none` (`if df.empty: return None, None`); otherwise
return the pivoted table, its cumulative-GEX series, and the flip zone
computed from the table's (strike, net_gex) pairs. -/
def build_gex (quotes : List Quote) : Option (List StrikeRow × List ℚ × Option ℚ) :=
  let rows := quotes.filterMap buildGexRow
  if rows.isEmpty then none
  else
    let table := buildTable rows
    some (table, cum_gex table, compute_flip_zone (table.map fun t => (t.strike, t.net_gex)))

/-- Modelled from the spec: no pressure-zone / percentile code exists
under `src/`; the spec prescribes the standard linear-interpolation
percentile.  For the sorted values `v₀ ≤ ⋯ ≤ vₙ₋₁` the 90th percentile
sits at rank `r = 9(n-1)/10`: with `i = ⌊r⌋` and `frac = r - i`, it is
`vᵢ + frac · (vᵢ₊₁ - vᵢ)` (for nonneg `r`, `⌊r⌋` is the Nat division
`9(n-1)/10`). -/
def percentile90 (l : List ℚ) : ℚ :=
  let s := l.insertionSort (· ≤ ·)
  let n := s.length
  if n = 0 then 0
  else
    let i : ℕ := 9 * (n - 1) / 10
    let frac : ℚ := ((9 * (n - 1) : ℕ) : ℚ) / 10 - (i : ℚ)
    s.getD i 0 + frac * (s.getD (i + 1) 0 - s.getD i 0)

/-- Modelled from the spec: a strike row is flagged a pressure zone
exactly when its `|net_gex|` is at or above the 90th percentile of
`|net_gex|` across all rows of the snapshot. -/
def pressureZone (table : List StrikeRow) (t : StrikeRow) : Bool :=
  decide (percentile90 (table.map fun x => |x.net_gex|) ≤ |t.net_gex|)

/-- A raw frame row as `compute_flip_zone` of `gex_builder.py` sees it
before cleaning: the strike may be non-numeric or missing
(`pd.to_numeric(..., errors='coerce')` turns such strikes into `NaN`,
which `dropna` then removes), the `net_gex` value is numeric. -/
structure RawRow where
  strike : Option ℚ
  net_gex : ℚ
deriving DecidableEq

/-- `compute_flip_zone` of `gex_builder.py` on a raw frame: empty
frames return `None` at once; otherwise non-numeric strikes are coerced
and dropped and the flip zone is computed from the remaining numeric
rows.  The source wraps the body in `try/except: return None`, so every
failure path also yields `None`; the embedding's body is total, making
the handler's result the function's only outcomes. -/
def compute_flip_zone_raw (df : List RawRow) : Option ℚ :=
  if df.isEmpty then none
  else compute_flip_zone (df.filterMap fun r => r.strike.map fun s => (s, r.net_gex))

/-! ### Helper lemmas: cumulative sums -/

lemma cumsumFrom_length (acc : ℚ) (l : List ℚ) : (cumsumFrom acc l).length = l.length := by
  induction l generalizing acc with
  | nil => rfl
  | cons x xs ih => simp [cumsumFrom, ih]

lemma cumsum_length (l : List ℚ) : (cumsum l).length = l.length := cumsumFrom_length 0 l

lemma cumsumFrom_getD (l : List ℚ) (acc : ℚ) (i : ℕ) (h : i < l.length) :
    (cumsumFrom acc l).getD i 0 = acc + (l.take (i + 1)).sum := by
  induction l generalizing acc i with
  | nil => simp at h
  | cons x xs ih =>
    cases i with
    | zero => simp [cumsumFrom]
    | succ k =>
      have hk : k < xs.length := by simpa using h
      simp only [cumsumFrom, List.getD_cons_succ]
      rw [ih (acc + x) k hk, List.take_succ_cons, List.sum_cons]
      ring

lemma cumsum_getD_zero (l : List ℚ) (h : l ≠ []) : (cumsum l).getD 0 0 = l.getD 0 0 := by
  cases l with
  | nil => exact absurd rfl h
  | cons x xs => simp [cumsum, cumsumFrom]

lemma cumsum_getD_succ (l : List ℚ) (i : ℕ) (h : i + 1 < l.length) :
    (cumsum l).getD (i + 1) 0 = (cumsum l).getD i 0 + l.getD (i + 1) 0 := by
  have h1 : i < l.length := Nat.lt_of_succ_lt h
  rw [cumsum, cumsumFrom_getD l 0 (i + 1) h, cumsumFrom_getD l 0 i h1,
    List.sum_take_succ l (i + 1) h, List.getD_eq_getElem l 0 h]
  ring

/-! ### Helper lemmas: the first-sign-change scan -/

lemma flipScan_eq_none_iff (l : List (ℚ × Int)) :
    flipScan l = none ↔
      ∀ i, i + 1 < l.length → (l.getD (i + 1) (0, 0)).2 = (l.getD i (0, 0)).2 := by
  induction l with
  | nil => simp [flipScan]
  | cons p l ih =>
    cases l with
    | nil =>
      simp only [flipScan, List.length_cons, List.length_nil]
      constructor
      · intro _ i hi
        omega
      · intro _
        trivial
    | cons q rest =>
      obtain ⟨s1, g1⟩ := p
      obtain ⟨s2, g2⟩ := q
      by_cases h : g2 = g1
      · rw [show flipScan ((s1, g1) :: (s2, g2) :: rest) = flipScan ((s2, g2) :: rest) by
          simp [flipScan, h]]
        rw [ih]
        constructor
        · intro htail i hi
          cases i with
          | zero => simpa using h
          | succ k =>
            have hk : k + 1 < ((s2, g2) :: rest).length := by
              simpa using Nat.lt_of_succ_lt_succ hi
            simpa using htail k hk
        · intro hfull i hi
          have hi1 : i + 1 + 1 < ((s1, g1) :: (s2, g2) :: rest).length := by
            simpa using Nat.succ_lt_succ hi
          simpa using hfull (i + 1) hi1
      · rw [show flipScan ((s1, g1) :: (s2, g2) :: rest) = some ((s1 + s2) / 2) by
          simp [flipScan, h]]
        constructor
        · intro hsome
          exact absurd hsome (by simp)
        · intro hfull
          have h0 : 0 + 1 < ((s1, g1) :: (s2, g2) :: rest).length := by simp
          have := hfull 0 h0
          simp at this
          exact absurd this h

lemma flipScan_eq_some_iff (l : List (ℚ × Int)) (z : ℚ) :
    flipScan l = some z ↔
      ∃ i, i + 1 < l.length ∧
        (l.getD (i + 1) (0, 0)).2 ≠ (l.getD i (0, 0)).2 ∧
        (∀ j, j < i → (l.getD (j + 1) (0, 0)).2 = (l.getD j (0, 0)).2) ∧
        z = ((l.getD i (0, 0)).1 + (l.getD (i + 1) (0, 0)).1) / 2 := by
  induction l with
  | nil => simp [flipScan]
  | cons p l ih =>
    cases l with
    | nil =>
      simp only [flipScan, List.length_cons, List.length_nil]
      constructor
      · intro hsome
        exact absurd hsome (by simp)
      · rintro ⟨i, hi, -⟩
        omega
    | cons q rest =>
      obtain ⟨s1, g1⟩ := p
      obtain ⟨s2, g2⟩ := q
      by_cases h : g2 = g1
      · rw [show flipScan ((s1, g1) :: (s2, g2) :: rest) = flipScan ((s2, g2) :: rest) by
          simp [flipScan, h]]
        rw [ih]
        constructor
        · rintro ⟨i, hlen, hne, hmin, hz⟩
          refine ⟨i + 1, by simpa using Nat.succ_lt_succ hlen, by simpa using hne, ?_, by
            simpa using hz⟩
          intro j hj
          cases j with
          | zero => simpa using h
          | succ k => simpa using hmin k (Nat.lt_of_succ_lt_succ hj)
        · rintro ⟨i, hlen, hne, hmin, hz⟩
          cases i with
          | zero =>
            simp only [List.getD_cons_succ, List.getD_cons_zero] at hne
            exact absurd h hne
          | succ k =>
            refine ⟨k, by simpa using Nat.lt_of_succ_lt_succ hlen, by simpa using hne, ?_, by
              simpa using hz⟩
            intro j hj
            simpa using hmin (j + 1) (Nat.succ_lt_succ hj)
      · rw [show flipScan ((s1, g1) :: (s2, g2) :: rest) = some ((s1 + s2) / 2) by
          simp [flipScan, h]]
        constructor
        · intro hsome
          have hz : z = (s1 + s2) / 2 := (Option.some.inj hsome).symm
          refine ⟨0, by simp, by simpa using h, fun j hj => absurd hj (Nat.not_lt_zero j), ?_⟩
          simpa using hz
        · rintro ⟨i, hlen, hne, hmin, hz⟩
          cases i with
          | zero =>
            simp only [List.getD_cons_succ, List.getD_cons_zero] at hz
            simp [hz]
          | succ k =>
            have := hmin 0 (Nat.succ_pos k)
            simp only [List.getD_cons_succ, List.getD_cons_zero] at this
            exact absurd this h

/-! ### Helper lemmas: sorting by strike -/

instance : IsTotal (ℚ × ℚ) (fun a b => a.1 ≤ b.1) := ⟨fun a b => le_total a.1 b.1⟩

instance : IsTrans (ℚ × ℚ) (fun a b => a.1 ≤ b.1) := ⟨fun _ _ _ h1 h2 => le_trans h1 h2⟩

lemma sortByStrike_perm (df : List (ℚ × ℚ)) : (sortByStrike df).Perm df :=
  List.perm_insertionSort _ df

lemma sortByStrike_sorted_fst (df : List (ℚ × ℚ)) :
    ((sortByStrike df).map Prod.fst).Sorted (· ≤ ·) := by
  have h := List.sorted_insertionSort (fun a b : ℚ × ℚ => a.1 ≤ b.1) df
  exact List.Pairwise.map Prod.fst (fun _ _ hab => hab) h

lemma zip_getD_fst (ds : List (ℚ × ℚ)) (i : ℕ) (hi : i < ds.length) :
    ((((ds.map Prod.fst).zip ((cumsum (ds.map Prod.snd)).map sign)).getD i (0, 0)).1 =
      (ds.map Prod.fst).getD i 0) ∧
    ((((ds.map Prod.fst).zip ((cumsum (ds.map Prod.snd)).map sign)).getD i (0, 0)).2 =
      sign ((cumsum (ds.map Prod.snd)).getD i 0)) := by
  have hc : (cumsum (ds.map Prod.snd)).length = ds.length := by
    rw [cumsum_length, List.length_map]
  have hz : ((ds.map Prod.fst).zip ((cumsum (ds.map Prod.snd)).map sign)).length = ds.length := by
    simp [List.length_zip, hc]
  have hi1 : i < (ds.map Prod.fst).length := by simpa using hi
  have hi2 : i < ((cumsum (ds.map Prod.snd)).map sign).length := by simpa [hc] using hi
  have hi3 : i < (cumsum (ds.map Prod.snd)).length := by simpa [hc] using hi
  rw [List.getD_eq_getElem _ _ (by omega : i < ((ds.map Prod.fst).zip
    ((cumsum (ds.map Prod.snd)).map sign)).length)]
  rw [List.getElem_zip]
  constructor
  · rw [List.getD_eq_getElem _ _ hi1]
  · rw [List.getD_eq_getElem _ _ hi3]
    simp

/-- C1: when the cumulative-GEX series (in ascending strike order)
changes sign at some adjacent pair, the flip zone is non-null, and
every value it returns is the strike midpoint of the first adjacent
pair where the sign differs, lying strictly between those two adjacent
strikes; when the sign never changes (in particular for a
single-strike table) the flip zone is `None`. -/
theorem flip_zone_first_sign_change (df : List (ℚ × ℚ))
    (hnd : (df.map Prod.fst).Nodup) :
    (∀ i, i + 1 < (sortByStrike df).length →
      sign ((cumsum ((sortByStrike df).map Prod.snd)).getD (i + 1) 0) ≠
        sign ((cumsum ((sortByStrike df).map Prod.snd)).getD i 0) →
      ∃ z, compute_flip_zone df = some z) ∧
    (∀ z, compute_flip_zone df = some z →
      ∃ i, i + 1 < (sortByStrike df).length ∧
        sign ((cumsum ((sortByStrike df).map Prod.snd)).getD (i + 1) 0) ≠
          sign ((cumsum ((sortByStrike df).map Prod.snd)).getD i 0) ∧
        (∀ j, j < i →
          sign ((cumsum ((sortByStrike df).map Prod.snd)).getD (j + 1) 0) =
            sign ((cumsum ((sortByStrike df).map Prod.snd)).getD j 0)) ∧
        z = (((sortByStrike df).map Prod.fst).getD i 0 +
              ((sortByStrike df).map Prod.fst).getD (i + 1) 0) / 2 ∧
        ((sortByStrike df).map Prod.fst).getD i 0 < z ∧
        z < ((sortByStrike df).map Prod.fst).getD (i + 1) 0) ∧
    ((∀ i, i + 1 < (sortByStrike df).length →
        sign ((cumsum ((sortByStrike df).map Prod.snd)).getD (i + 1) 0) =
          sign ((cumsum ((sortByStrike df).map Prod.snd)).getD i 0)) →
      compute_flip_zone df = none) := by
  have hzlen : (((sortByStrike df).map Prod.fst).zip
      ((cumsum ((sortByStrike df).map Prod.snd)).map sign)).length = (sortByStrike df).length := by
    simp [List.length_zip, cumsum_length]
  have hnd2 : ((sortByStrike df).map Prod.fst).Nodup :=
    (((sortByStrike_perm df).map Prod.fst).nodup_iff).mpr hnd
  have hsorted := sortByStrike_sorted_fst df
  refine ⟨?_, ?_, ?_⟩
  · intro i hi hne
    cases hopt : compute_flip_zone df with
    | some z => exact ⟨z, rfl⟩
    | none =>
      exfalso
      rw [show compute_flip_zone df = flipScan (((sortByStrike df).map Prod.fst).zip
        ((cumsum ((sortByStrike df).map Prod.snd)).map sign)) from rfl] at hopt
      have hall := (flipScan_eq_none_iff _).mp hopt
      have g1 := zip_getD_fst (sortByStrike df) i (Nat.lt_of_succ_lt hi)
      have g2 := zip_getD_fst (sortByStrike df) (i + 1) hi
      have heq := hall i (by rw [hzlen]; exact hi)
      rw [g1.2, g2.2] at heq
      exact hne heq
  · intro z hz
    rw [show compute_flip_zone df = flipScan (((sortByStrike df).map Prod.fst).zip
      ((cumsum ((sortByStrike df).map Prod.snd)).map sign)) from rfl] at hz
    obtain ⟨i, hlen, hne, hmin, hzeq⟩ := (flipScan_eq_some_iff _ z).mp hz
    rw [hzlen] at hlen
    have hi : i < (sortByStrike df).length := Nat.lt_of_succ_lt hlen
    have g1 := zip_getD_fst (sortByStrike df) i hi
    have g2 := zip_getD_fst (sortByStrike df) (i + 1) hlen
    rw [g1.2, g2.2] at hne
    rw [g1.1, g2.1] at hzeq
    have hstep : ((sortByStrike df).map Prod.fst).getD i 0 <
        ((sortByStrike df).map Prod.fst).getD (i + 1) 0 := by
      have hi1 : i < ((sortByStrike df).map Prod.fst).length := by simpa using hi
      have hi2 : i + 1 < ((sortByStrike df).map Prod.fst).length := by simpa using hlen
      have hle : ((sortByStrike df).map Prod.fst)[i] ≤
          ((sortByStrike df).map Prod.fst)[i + 1] :=
        List.pairwise_iff_getElem.mp hsorted i (i + 1) hi1 hi2 (Nat.lt_succ_self i)
      have hne2 : ((sortByStrike df).map Prod.fst)[i] ≠
          ((sortByStrike df).map Prod.fst)[i + 1] := by
        intro he
        exact absurd ((hnd2.getElem_inj_iff).mp he) (by omega)
      rw [List.getD_eq_getElem _ _ hi1, List.getD_eq_getElem _ _ hi2]
      exact lt_of_le_of_ne hle hne2
    refine ⟨i, hlen, hne, ?_, hzeq, by rw [hzeq]; linarith, by rw [hzeq]; linarith⟩
    intro j hj
    have hjlen : j + 1 < (sortByStrike df).length := by omega
    have gj1 := zip_getD_fst (sortByStrike df) j (Nat.lt_of_succ_lt hjlen)
    have gj2 := zip_getD_fst (sortByStrike df) (j + 1) hjlen
    have := hmin j hj
    rwa [gj1.2, gj2.2] at this
  · intro hall
    rw [show compute_flip_zone df = flipScan (((sortByStrike df).map Prod.fst).zip
      ((cumsum ((sortByStrike df).map Prod.snd)).map sign)) from rfl]
    apply (flipScan_eq_none_iff _).mpr
    intro i hi
    rw [hzlen] at hi
    have g1 := zip_getD_fst (sortByStrike df) i (Nat.lt_of_succ_lt hi)
    have g2 := zip_getD_fst (sortByStrike df) (i + 1) hi
    rw [g1.2, g2.2]
    exact hall i hi

/-- Witness for C1: on the two-strike table of the spec's first
scenario the cumulative signs differ at the first adjacent pair, so
the flip zone is non-null; it evaluates to `102.5`, strictly between
the adjacent strikes `100` and `105`. -/
theorem flip_zone_first_sign_change_witness :
    (([((100 : ℚ), (-50 : ℚ)), ((105 : ℚ), (80 : ℚ))].map Prod.fst).Nodup) ∧
    (0 + 1 < (sortByStrike [((100 : ℚ), (-50 : ℚ)), ((105 : ℚ), (80 : ℚ))]).length) ∧
    (sign ((cumsum ((sortByStrike [((100 : ℚ), (-50 : ℚ)),
          ((105 : ℚ), (80 : ℚ))]).map Prod.snd)).getD (0 + 1) 0) ≠
      sign ((cumsum ((sortByStrike [((100 : ℚ), (-50 : ℚ)),
          ((105 : ℚ), (80 : ℚ))]).map Prod.snd)).getD 0 0)) ∧
    (∃ z, compute_flip_zone [((100 : ℚ), (-50 : ℚ)), ((105 : ℚ), (80 : ℚ))] = some z) ∧
    compute_flip_zone [((100 : ℚ), (-50 : ℚ)), ((105 : ℚ), (80 : ℚ))] = some (205 / 2) ∧
    (100 : ℚ) < 205 / 2 ∧ (205 / 2 : ℚ) < 105 := by
  have hnd : (([((100 : ℚ), (-50 : ℚ)), ((105 : ℚ), (80 : ℚ))]).map Prod.fst).Nodup := by
    norm_num
  have hlen : 0 + 1 < (sortByStrike [((100 : ℚ), (-50 : ℚ)), ((105 : ℚ), (80 : ℚ))]).length := by
    norm_num [sortByStrike, List.insertionSort, List.orderedInsert]
  have hsign : sign ((cumsum ((sortByStrike [((100 : ℚ), (-50 : ℚ)),
        ((105 : ℚ), (80 : ℚ))]).map Prod.snd)).getD (0 + 1) 0) ≠
      sign ((cumsum ((sortByStrike [((100 : ℚ), (-50 : ℚ)),
        ((105 : ℚ), (80 : ℚ))]).map Prod.snd)).getD 0 0) := by
    norm_num [sortByStrike, cumsum, cumsumFrom, sign, List.insertionSort, List.orderedInsert]
  have hz : compute_flip_zone [((100 : ℚ), (-50 : ℚ)), ((105 : ℚ), (80 : ℚ))] =
      some (205 / 2) := by
    norm_num [compute_flip_zone, sortByStrike, cumsum, cumsumFrom, flipScan, sign,
      List.insertionSort, List.orderedInsert]
  have hex :=
    (flip_zone_first_sign_change [((100 : ℚ), (-50 : ℚ)), ((105 : ℚ), (80 : ℚ))] hnd).1
      0 hlen hsign
  obtain ⟨i, hlen2, -, -, -, hlt1, hlt2⟩ :=
    (flip_zone_first_sign_change [((100 : ℚ), (-50 : ℚ)), ((105 : ℚ), (80 : ℚ))] hnd).2.1
      (205 / 2) hz
  have hl2 : (sortByStrike [((100 : ℚ), (-50 : ℚ)), ((105 : ℚ), (80 : ℚ))]).length = 2 := by
    norm_num [sortByStrike, List.insertionSort, List.orderedInsert]
  rw [hl2] at hlen2
  have hi0 : i = 0 := by omega
  subst hi0
  have hmap : (sortByStrike [((100 : ℚ), (-50 : ℚ)), ((105 : ℚ), (80 : ℚ))]).map Prod.fst =
      [(100 : ℚ), 105] := by
    norm_num [sortByStrike, List.insertionSort, List.orderedInsert]
  rw [hmap] at hlt1 hlt2
  simp only [List.getD_cons_zero, List.getD_cons_succ] at hlt1 hlt2
  exact ⟨hnd, hlen, hsign, hex, hz, hlt1, hlt2⟩

/-- C3: the cumulative-GEX series is the prefix sum of `net_gex` taken
in ascending strike order: the strikes are sorted ascending before
cumulating, the first cumulative value equals the first `net_gex`, and
each later one is the previous cumulative value plus that row's
`net_gex`. -/
theorem cumulative_prefix_sum (df : List (ℚ × ℚ)) :
    (((sortByStrike df).map Prod.fst).Sorted (· ≤ ·)) ∧
    (df ≠ [] →
      (cumsum ((sortByStrike df).map Prod.snd)).getD 0 0 =
        ((sortByStrike df).map Prod.snd).getD 0 0) ∧
    (∀ i, i + 1 < (sortByStrike df).length →
      (cumsum ((sortByStrike df).map Prod.snd)).getD (i + 1) 0 =
        (cumsum ((sortByStrike df).map Prod.snd)).getD i 0 +
          ((sortByStrike df).map Prod.snd).getD (i + 1) 0) := by
  refine ⟨sortByStrike_sorted_fst df, ?_, ?_⟩
  · intro hne
    apply cumsum_getD_zero
    intro h0
    apply hne
    have hperm := sortByStrike_perm df
    have hnil : sortByStrike df = [] := by simpa using h0
    rw [hnil] at hperm
    exact hperm.symm.eq_nil
  · intro i hi
    apply cumsum_getD_succ
    simpa using hi

/-- Witness for C3: on an input given in descending strike order the
strikes are sorted ascending first, the first cumulative value is
`-50`, and the second is `-50 + 80`. -/
theorem cumulative_prefix_sum_witness :
    (([((105 : ℚ), (80 : ℚ)), ((100 : ℚ), (-50 : ℚ))] : List (ℚ × ℚ)) ≠ []) ∧
    (0 + 1 < (sortByStrike [((105 : ℚ), (80 : ℚ)), ((100 : ℚ), (-50 : ℚ))]).length) ∧
    (cumsum ((sortByStrike [((105 : ℚ), (80 : ℚ)), ((100 : ℚ), (-50 : ℚ))]).map Prod.snd)).getD 0 0 =
      ((sortByStrike [((105 : ℚ), (80 : ℚ)), ((100 : ℚ), (-50 : ℚ))]).map Prod.snd).getD 0 0 ∧
    (cumsum ((sortByStrike [((105 : ℚ), (80 : ℚ)), ((100 : ℚ), (-50 : ℚ))]).map Prod.snd)).getD
        (0 + 1) 0 =
      (cumsum ((sortByStrike [((105 : ℚ), (80 : ℚ)), ((100 : ℚ), (-50 : ℚ))]).map Prod.snd)).getD
          0 0 +
        ((sortByStrike [((105 : ℚ), (80 : ℚ)), ((100 : ℚ), (-50 : ℚ))]).map Prod.snd).getD
          (0 + 1) 0 := by
  have h := cumulative_prefix_sum [((105 : ℚ), (80 : ℚ)), ((100 : ℚ), (-50 : ℚ))]
  have hne : ([((105 : ℚ), (80 : ℚ)), ((100 : ℚ), (-50 : ℚ))] : List (ℚ × ℚ)) ≠ [] := by
    simp
  have hlen : 0 + 1 < (sortByStrike [((105 : ℚ), (80 : ℚ)), ((100 : ℚ), (-50 : ℚ))]).length := by
    norm_num [sortByStrike, List.insertionSort, List.orderedInsert]
  exact ⟨hne, hlen, h.2.1 hne, h.2.2 0 hlen⟩

/-- C10: `compute_flip_zone` on a raw frame is total: every input
yields either a number or `None`; the empty frame yields `None`, and so
does a frame whose strikes are all non-numeric. -/
theorem compute_flip_zone_total (df : List RawRow) :
    (compute_flip_zone_raw df = none ∨ ∃ q, compute_flip_zone_raw df = some q) ∧
    (df = [] → compute_flip_zone_raw df = none) ∧
    ((∀ r ∈ df, r.strike = none) → compute_flip_zone_raw df = none) := by
  refine ⟨?_, ?_, ?_⟩
  · cases h : compute_flip_zone_raw df with
    | none => exact Or.inl rfl
    | some q => exact Or.inr ⟨q, rfl⟩
  · intro h
    subst h
    rfl
  · intro hall
    by_cases hdf : df.isEmpty
    · unfold compute_flip_zone_raw
      rw [if_pos hdf]
    · have hfm : df.filterMap (fun r => r.strike.map fun s => (s, r.net_gex)) = [] := by
        rw [List.filterMap_eq_nil_iff]
        intro r hr
        rw [hall r hr]
        rfl
      unfold compute_flip_zone_raw
      rw [if_neg hdf, hfm]
      rfl

/-- Witness for C10: a one-row frame whose only strike is non-numeric
yields `None` without an error. -/
theorem compute_flip_zone_total_witness :
    (∀ r ∈ [({ strike := none, net_gex := 5 } : RawRow)], r.strike = none) ∧
    compute_flip_zone_raw [({ strike := none, net_gex := 5 } : RawRow)] = none := by
  have hall : ∀ r ∈ [({ strike := none, net_gex := 5 } : RawRow)], r.strike = none := by
    intro r hr
    rw [List.mem_singleton.mp hr]
  exact ⟨hall, (compute_flip_zone_total _).2.2 hall⟩

/-- Counterexample for C2: a strike observed with a single zero-gamma
call has `call_gex = put_gex = 0`, yet the code's
`np.where(total_gex > 0, ..., 0)` gives it the GSI value `0` — a
number, not an undefined/null entry. -/
theorem gsi_zero_denominator_counterexample :
    ∃ t : StrikeRow, buildTable [⟨100, 0, true⟩] = [t] ∧
      t.call_gex = 0 ∧ t.put_gex = 0 ∧ t.GSI = 0 := by
  refine ⟨⟨100, 0, 0, 0, 0⟩, ?_, rfl, rfl, rfl⟩
  norm_num [buildTable, strikesOf, call_gex, put_gex, GSI_at, List.insertionSort,
    List.orderedInsert, List.dedup, List.filter]

/-- C2 (amended): the gamma squeeze index at a strike equals
`|callGex| / (|callGex| + |putGex|)` and lies in `[0, 1]` when the
denominator is positive; the denominator is zero exactly when both
exposures are zero, and in that case the GSI is the value `0`
(not null). -/
theorem gsi_range_and_zero_policy (rows : List Row) (t : StrikeRow)
    (ht : t ∈ buildTable rows) :
    (0 < |t.call_gex| + |t.put_gex| →
      t.GSI = |t.call_gex| / (|t.call_gex| + |t.put_gex|) ∧ 0 ≤ t.GSI ∧ t.GSI ≤ 1) ∧
    (|t.call_gex| + |t.put_gex| = 0 ↔ t.call_gex = 0 ∧ t.put_gex = 0) ∧
    (t.call_gex = 0 ∧ t.put_gex = 0 → t.GSI = 0) := by
  obtain ⟨s, hs, rfl⟩ := List.mem_map.mp ht
  simp only
  refine ⟨?_, ?_, ?_⟩
  · intro hpos
    have hgsi : GSI_at rows s = |call_gex rows s| / (|call_gex rows s| + |put_gex rows s|) := by
      simp only [GSI_at]
      rw [if_pos hpos]
    refine ⟨hgsi, ?_, ?_⟩
    · rw [hgsi]
      positivity
    · rw [hgsi]
      apply div_le_one_of_le₀
      · exact le_add_of_nonneg_right (abs_nonneg _)
      · linarith
  · constructor
    · intro h0
      have hc := abs_nonneg (call_gex rows s)
      have hp := abs_nonneg (put_gex rows s)
      constructor
      · rw [← abs_eq_zero]
        linarith
      · rw [← abs_eq_zero]
        linarith
    · rintro ⟨hc, hp⟩
      rw [hc, hp]
      simp
  · rintro ⟨hc, hp⟩
    simp [GSI_at, hc, hp]

/-- Witness for C2: on a table with one call of exposure `200`, the
denominator is positive and the GSI evaluates to `1`, inside `[0, 1]`. -/
theorem gsi_range_and_zero_policy_witness :
    ((⟨100, 200, 0, 200, 1⟩ : StrikeRow) ∈ buildTable [⟨100, 200, true⟩]) ∧
    (0 : ℚ) < |(200 : ℚ)| + |(0 : ℚ)| ∧
    (1 : ℚ) = |(200 : ℚ)| / (|(200 : ℚ)| + |(0 : ℚ)|) ∧
    (0 : ℚ) ≤ 1 ∧ (1 : ℚ) ≤ 1 := by
  have ht : (⟨100, 200, 0, 200, 1⟩ : StrikeRow) ∈ buildTable [⟨100, 200, true⟩] := by
    have : buildTable [⟨100, 200, true⟩] = [⟨100, 200, 0, 200, 1⟩] := by
      norm_num [buildTable, strikesOf, call_gex, put_gex, GSI_at, List.insertionSort,
        List.orderedInsert, List.dedup, List.filter]
    rw [this]
    exact List.mem_singleton.mpr rfl
  have h := (gsi_range_and_zero_policy [⟨100, 200, true⟩] _ ht).1 (by norm_num)
  exact ⟨ht, by norm_num, h.1, h.2.1, h.2.2⟩

/-- Counterexample for C4: `build_day` keeps a quote whose
`underlyingPrice` is missing instead of discarding it, substituting the
day's spot price (here `500`): `gamma=2, oi=10` yields a retained row
with `GEX = 2 * 10 * 100 * 500`. -/
theorem build_day_keeps_missing_underlying :
    buildDayRow 500 100 { strike := none, gamma := some 2, oi := some 10,
                          underlying := none, otype := true } =
      some { strike := 100, GEX := 1000000, otype := true } := by
  norm_num [buildDayRow, orElse0]

/-- C4 (amended): in `build_gex` an observation missing any of strike,
gamma, open interest or underlying price is discarded; in `build_day`
an observation missing gamma or open interest is discarded, but a
missing underlying price is coerced to the day's spot price and the
observation is kept. -/
theorem missing_field_policy :
    (∀ q : Quote, q.strike = none ∨ q.gamma = none ∨ q.oi = none ∨ q.underlying = none →
      buildGexRow q = none) ∧
    (∀ (spot strike : ℚ) (q : Quote), q.gamma = none ∨ q.oi = none →
      buildDayRow spot strike q = none) ∧
    (∀ (spot strike : ℚ) (q : Quote) (g o : ℚ), q.gamma = some g → q.oi = some o →
      q.underlying = none →
      buildDayRow spot strike q = some ⟨strike, g * o * 100 * spot, q.otype⟩) := by
  refine ⟨?_, ?_, ?_⟩
  · rintro ⟨st, ga, oi2, un, ot⟩ h
    rcases st with _ | sv <;> rcases ga with _ | g <;> rcases oi2 with _ | o <;>
      rcases un with _ | u <;> simp_all [buildGexRow]
  · rintro spot strike ⟨st, ga, oi2, un, ot⟩ h
    rcases ga with _ | g <;> rcases oi2 with _ | o <;> simp_all [buildDayRow]
  · rintro spot strike ⟨st, ga, oi2, un, ot⟩ g o hg ho hu
    simp only at hg ho hu
    subst hg
    subst ho
    subst hu
    simp [buildDayRow, orElse0]

/-- Witness for C4 (amended): concrete quotes exercising all three
branches — a missing strike is discarded by `build_gex`, a missing
gamma is discarded by `build_day`, and a missing underlying price is
kept by `build_day` with the spot price substituted. -/
theorem missing_field_policy_witness :
    buildGexRow { strike := none, gamma := some 2, oi := some 10, underlying := some 400,
                  otype := true } = none ∧
    buildDayRow 500 100 { strike := some 100, gamma := none, oi := some 10,
                          underlying := some 400, otype := true } = none ∧
    buildDayRow 500 100 { strike := none, gamma := some 2, oi := some 10, underlying := none,
                          otype := false } = some ⟨100, 2 * 10 * 100 * 500, false⟩ := by
  refine ⟨?_, ?_, ?_⟩
  · exact missing_field_policy.1 _ (Or.inl rfl)
  · exact missing_field_policy.2.1 500 100 _ (Or.inl rfl)
  · exact missing_field_policy.2.2 500 100 _ 2 10 rfl rfl rfl

/-! ### Helper lemmas: the strike index of the pivot -/

lemma strikesOf_sorted_le (rows : List Row) : (strikesOf rows).Sorted (· ≤ ·) :=
  List.sorted_insertionSort _ _

lemma strikesOf_nodup (rows : List Row) : (strikesOf rows).Nodup :=
  ((List.perm_insertionSort _ _).nodup_iff).mpr (List.nodup_dedup _)

lemma strikesOf_mem (rows : List Row) (s : ℚ) :
    s ∈ strikesOf rows ↔ s ∈ rows.map Row.strike :=
  ((List.perm_insertionSort _ _).mem_iff).trans List.mem_dedup

lemma sorted_lt_of_nodup (l : List ℚ) (hs : l.Sorted (· ≤ ·)) (hn : l.Nodup) :
    l.Sorted (· < ·) := by
  rw [List.Sorted, List.pairwise_iff_getElem] at hs ⊢
  intro i j hi hj hij
  refine lt_of_le_of_ne (hs i j hi hj hij) ?_
  intro he
  exact absurd (hn.getElem_inj_iff.mp he) (Nat.ne_of_lt hij)

lemma buildTable_map_strike (rows : List Row) :
    (buildTable rows).map StrikeRow.strike = strikesOf rows := by
  simp [buildTable, List.map_map, Function.comp_def]

/-- C6: the pivoted table has exactly one row per distinct observed
strike, its strikes are pairwise distinct and iterated in ascending
order, and a strike observed with only calls (or only puts) keeps the
value `0` — not null — for the missing side. -/
theorem pivot_unique_sorted_strikes (rows : List Row) :
    ((buildTable rows).map StrikeRow.strike).Sorted (· < ·) ∧
    (∀ s, s ∈ (buildTable rows).map StrikeRow.strike ↔ s ∈ rows.map Row.strike) ∧
    (∀ t ∈ buildTable rows,
      ((∀ r ∈ rows, r.strike = t.strike → r.otype = true) → t.put_gex = 0) ∧
      ((∀ r ∈ rows, r.strike = t.strike → r.otype = false) → t.call_gex = 0)) := by
  refine ⟨?_, ?_, ?_⟩
  · rw [buildTable_map_strike]
    exact sorted_lt_of_nodup _ (strikesOf_sorted_le rows) (strikesOf_nodup rows)
  · intro s
    rw [buildTable_map_strike]
    exact strikesOf_mem rows s
  · intro t ht
    obtain ⟨s, hs, rfl⟩ := List.mem_map.mp ht
    constructor
    · intro hall
      show put_gex rows s = 0
      have hnil : rows.filter (fun r => !r.otype && decide (r.strike = s)) = [] := by
        rw [List.filter_eq_nil_iff]
        intro r hr
        by_cases he : r.strike = s
        · have hot : r.otype = true := hall r hr he
          simp [hot]
        · simp [he]
      rw [put_gex, hnil]
      simp
    · intro hall
      show call_gex rows s = 0
      have hnil : rows.filter (fun r => r.otype && decide (r.strike = s)) = [] := by
        rw [List.filter_eq_nil_iff]
        intro r hr
        by_cases he : r.strike = s
        · have hot : r.otype = false := hall r hr he
          simp [hot]
        · simp [he]
      rw [call_gex, hnil]
      simp

/-- Witness for C6: a one-row input with a single call at strike `100`
keeps that strike with `put_gex = 0`. -/
theorem pivot_unique_sorted_strikes_witness :
    ((⟨100, 200, 0, 200, 1⟩ : StrikeRow) ∈ buildTable [⟨100, 200, true⟩]) ∧
    (∀ r ∈ [(⟨100, 200, true⟩ : Row)], r.strike = (100 : ℚ) → r.otype = true) ∧
    (⟨100, 200, 0, 200, 1⟩ : StrikeRow).put_gex = 0 := by
  have ht : (⟨100, 200, 0, 200, 1⟩ : StrikeRow) ∈ buildTable [⟨100, 200, true⟩] := by
    have : buildTable [⟨100, 200, true⟩] = [⟨100, 200, 0, 200, 1⟩] := by
      norm_num [buildTable, strikesOf, call_gex, put_gex, GSI_at, List.insertionSort,
        List.orderedInsert, List.dedup, List.filter]
    rw [this]
    exact List.mem_singleton.mpr rfl
  have hall : ∀ r ∈ [(⟨100, 200, true⟩ : Row)], r.strike = (100 : ℚ) → r.otype = true := by
    intro r hr _
    rw [List.mem_singleton.mp hr]
  have h := ((pivot_unique_sorted_strikes [⟨100, 200, true⟩]).2.2 _ ht).1 hall
  exact ⟨ht, hall, h⟩

/-- C8: the aggregation yields the explicit no-data result `none`
exactly when no valid observation survives filtering, and a real
snapshot whose exposures are all zero still yields a `some` table —
the two outcomes are distinguishable. -/
theorem build_gex_no_data (quotes : List Quote) :
    (build_gex quotes = none ↔ quotes.filterMap buildGexRow = []) ∧
    build_gex [⟨some 100, some 0, some 10, some 400, true⟩] =
      some ([⟨100, 0, 0, 0, 0⟩], [0], none) := by
  constructor
  · have hdef : build_gex quotes =
        if (quotes.filterMap buildGexRow).isEmpty then none
        else some (buildTable (quotes.filterMap buildGexRow),
          cum_gex (buildTable (quotes.filterMap buildGexRow)),
          compute_flip_zone ((buildTable (quotes.filterMap buildGexRow)).map
            fun t => (t.strike, t.net_gex))) := rfl
    rw [hdef]
    by_cases h : (quotes.filterMap buildGexRow).isEmpty = true
    · rw [if_pos h]
      simp [List.isEmpty_iff.mp h]
    · rw [if_neg h]
      rw [List.isEmpty_iff] at h
      simp [h]
  · norm_num [build_gex, buildGexRow, buildTable, strikesOf, call_gex, put_gex, GSI_at,
      cum_gex, cumsum, cumsumFrom, compute_flip_zone, sortByStrike, flipScan, sign,
      List.insertionSort, List.orderedInsert, List.dedup, List.filter, List.filterMap]

/-! ### Helper lemmas: group sums over a cons cell -/

lemma call_gex_cons (r : Row) (rows : List Row) (s : ℚ) :
    call_gex (r :: rows) s =
      (if r.otype = true ∧ r.strike = s then r.GEX else 0) + call_gex rows s := by
  cases hb : r.otype with
  | false => by_cases h2 : r.strike = s <;> simp [call_gex, List.filter_cons, hb, h2]
  | true => by_cases h2 : r.strike = s <;> simp [call_gex, List.filter_cons, hb, h2]

lemma put_gex_cons (r : Row) (rows : List Row) (s : ℚ) :
    put_gex (r :: rows) s =
      (if r.otype = false ∧ r.strike = s then r.GEX else 0) + put_gex rows s := by
  cases hb : r.otype with
  | false => by_cases h2 : r.strike = s <;> simp [put_gex, List.filter_cons, hb, h2]
  | true => by_cases h2 : r.strike = s <;> simp [put_gex, List.filter_cons, hb, h2]

lemma buildGexRow_valid (q : Quote) (hv : isValid q = true) :
    buildGexRow q = some ⟨q.strike.getD 0,
      q.gamma.getD 0 * q.oi.getD 0 * 100 * q.underlying.getD 0, q.otype⟩ := by
  obtain ⟨st, ga, oi2, un, ot⟩ := q
  rcases st with _ | sv <;> rcases ga with _ | g <;> rcases oi2 with _ | o <;>
    rcases un with _ | u <;> simp_all [buildGexRow, isValid]

lemma buildGexRow_invalid (q : Quote) (hv : isValid q = false) :
    buildGexRow q = none := by
  obtain ⟨st, ga, oi2, un, ot⟩ := q
  rcases st with _ | sv <;> rcases ga with _ | g <;> rcases oi2 with _ | o <;>
    rcases un with _ | u <;> simp_all [buildGexRow, isValid]

/-- C7: at every strike, the table's `net_gex` equals `call_gex` minus
`put_gex`, which are the sums over the valid call (respectively put)
observations at that strike of `gamma * openInterest * 100 *
underlyingPrice`. -/
theorem net_gex_decomposition (quotes : List Quote) (s : ℚ) :
    net_gex (quotes.filterMap buildGexRow) s =
      ((quotes.filter fun q => isValid q && q.otype && decide (q.strike = some s)).map
          fun q => q.gamma.getD 0 * q.oi.getD 0 * 100 * q.underlying.getD 0).sum -
      ((quotes.filter fun q => isValid q && !q.otype && decide (q.strike = some s)).map
          fun q => q.gamma.getD 0 * q.oi.getD 0 * 100 * q.underlying.getD 0).sum := by
  induction quotes with
  | nil => simp [net_gex, call_gex, put_gex]
  | cons q qs ih =>
    rw [net_gex] at ih ⊢
    by_cases hv : isValid q = true
    · have hv2 := hv
      simp only [isValid, Bool.and_eq_true] at hv2
      obtain ⟨⟨⟨hst, -⟩, -⟩, -⟩ := hv2
      obtain ⟨sv, hsv⟩ := Option.isSome_iff_exists.mp hst
      rw [List.filterMap_cons_some (buildGexRow_valid q hv), call_gex_cons, put_gex_cons,
        List.filter_cons, List.filter_cons, hsv, hv]
      simp only [Option.getD_some, Bool.true_and]
      cases hot : q.otype <;> by_cases heq : sv = s <;>
        simp [hot, heq] <;> linarith [ih]
    · have hv3 : isValid q = false := by simpa using hv
      rw [List.filterMap_cons_none (buildGexRow_invalid q hv3), List.filter_cons,
        List.filter_cons, hv3]
      simpa using ih

/-! ### Helper lemmas: permutation invariance of the aggregation -/

lemma strikesOf_perm_eq {r1 r2 : List Row} (h : r1.Perm r2) : strikesOf r1 = strikesOf r2 := by
  apply List.eq_of_perm_of_sorted ?_ (strikesOf_sorted_le r1) (strikesOf_sorted_le r2)
  exact (List.perm_insertionSort _ _).trans
    (((h.map Row.strike).dedup).trans (List.perm_insertionSort _ _).symm)

lemma call_gex_perm {r1 r2 : List Row} (h : r1.Perm r2) (s : ℚ) :
    call_gex r1 s = call_gex r2 s :=
  ((h.filter _).map Row.GEX).sum_eq

lemma put_gex_perm {r1 r2 : List Row} (h : r1.Perm r2) (s : ℚ) :
    put_gex r1 s = put_gex r2 s :=
  ((h.filter _).map Row.GEX).sum_eq

lemma GSI_at_perm {r1 r2 : List Row} (h : r1.Perm r2) (s : ℚ) :
    GSI_at r1 s = GSI_at r2 s := by
  simp only [GSI_at]
  rw [call_gex_perm h s, put_gex_perm h s]

lemma buildTable_perm_eq {r1 r2 : List Row} (h : r1.Perm r2) :
    buildTable r1 = buildTable r2 := by
  rw [buildTable, buildTable, strikesOf_perm_eq h]
  apply List.map_congr_left
  intro s _
  rw [call_gex_perm h s, put_gex_perm h s, GSI_at_perm h s]

/-- C9: the aggregation is invariant under permutation of the input
observations — the per-strike table, the cumulative series and the
flip zone are identical for any input order. -/
theorem build_gex_perm_invariant (q1 q2 : List Quote) (h : q1.Perm q2) :
    build_gex q1 = build_gex q2 := by
  have hrows : (q1.filterMap buildGexRow).Perm (q2.filterMap buildGexRow) := h.filterMap _
  have htab := buildTable_perm_eq hrows
  have hd1 : build_gex q1 =
      if (q1.filterMap buildGexRow).isEmpty then none
      else some (buildTable (q1.filterMap buildGexRow),
        cum_gex (buildTable (q1.filterMap buildGexRow)),
        compute_flip_zone ((buildTable (q1.filterMap buildGexRow)).map
          fun t => (t.strike, t.net_gex))) := rfl
  have hd2 : build_gex q2 =
      if (q2.filterMap buildGexRow).isEmpty then none
      else some (buildTable (q2.filterMap buildGexRow),
        cum_gex (buildTable (q2.filterMap buildGexRow)),
        compute_flip_zone ((buildTable (q2.filterMap buildGexRow)).map
          fun t => (t.strike, t.net_gex))) := rfl
  have hemp : (q1.filterMap buildGexRow).isEmpty = (q2.filterMap buildGexRow).isEmpty := by
    cases h1 : q1.filterMap buildGexRow with
    | nil =>
      have h2 : q2.filterMap buildGexRow = [] := by
        rw [h1] at hrows
        exact hrows.symm.eq_nil
      rw [h2]
    | cons a l =>
      have h2 : q2.filterMap buildGexRow ≠ [] := by
        intro habs
        rw [h1, habs] at hrows
        exact absurd hrows.eq_nil (by simp)
      cases h2' : q2.filterMap buildGexRow with
      | nil => exact absurd h2' h2
      | cons b m => rfl
  rw [hd1, hd2, hemp, htab]

/-- Witness for C9: swapping the two quotes of a concrete input leaves
`build_gex` unchanged. -/
theorem build_gex_perm_invariant_witness :
    ([(⟨some 100, some 1, some 2, some 400, true⟩ : Quote),
        ⟨some 105, some 1, some 3, some 400, false⟩].Perm
      [⟨some 105, some 1, some 3, some 400, false⟩,
        ⟨some 100, some 1, some 2, some 400, true⟩]) ∧
    build_gex [(⟨some 100, some 1, some 2, some 400, true⟩ : Quote),
        ⟨some 105, some 1, some 3, some 400, false⟩] =
      build_gex [⟨some 105, some 1, some 3, some 400, false⟩,
        ⟨some 100, some 1, some 2, some 400, true⟩] := by
  have hp : ([(⟨some 100, some 1, some 2, some 400, true⟩ : Quote),
      ⟨some 105, some 1, some 3, some 400, false⟩].Perm
        [⟨some 105, some 1, some 3, some 400, false⟩,
          ⟨some 100, some 1, some 2, some 400, true⟩]) :=
    List.Perm.swap _ _ []
  exact ⟨hp, build_gex_perm_invariant _ _ hp⟩

/-- C5: a strike row is flagged a pressure zone exactly when its
absolute net GEX is at or above the snapshot's 90th percentile of
absolute net GEX; consequently no unflagged row has a larger absolute
net GEX than any flagged row. -/
theorem pressure_zone_percentile (table : List StrikeRow) :
    (∀ t ∈ table, pressureZone table t = true ↔
      percentile90 (table.map fun x => |x.net_gex|) ≤ |t.net_gex|) ∧
    (∀ u ∈ table, ∀ f ∈ table, pressureZone table u = false → pressureZone table f = true →
      |u.net_gex| ≤ |f.net_gex|) := by
  constructor
  · intro t _
    simp [pressureZone]
  · intro u _ f _ hu hf
    have hu2 : ¬ percentile90 (table.map fun x => |x.net_gex|) ≤ |u.net_gex| := by
      simpa [pressureZone] using hu
    have hf2 : percentile90 (table.map fun x => |x.net_gex|) ≤ |f.net_gex| := by
      simpa [pressureZone] using hf
    linarith [not_le.mp hu2]

/-- Witness for C5: a one-row table, whose 90th percentile is its own
absolute net GEX, flags that row. -/
theorem pressure_zone_percentile_witness :
    ((⟨100, 5, 0, 5, 1⟩ : StrikeRow) ∈ [(⟨100, 5, 0, 5, 1⟩ : StrikeRow)]) ∧
    (pressureZone [(⟨100, 5, 0, 5, 1⟩ : StrikeRow)] ⟨100, 5, 0, 5, 1⟩ = true ↔
      percentile90 ([(⟨100, 5, 0, 5, 1⟩ : StrikeRow)].map fun x => |x.net_gex|) ≤
        |(⟨100, 5, 0, 5, 1⟩ : StrikeRow).net_gex|) := by
  have hm : (⟨100, 5, 0, 5, 1⟩ : StrikeRow) ∈ [(⟨100, 5, 0, 5, 1⟩ : StrikeRow)] :=
    List.mem_singleton.mpr rfl
  exact ⟨hm, (pressure_zone_percentile [⟨100, 5, 0, 5, 1⟩]).1 _ hm⟩
